import Mathlib

/-!
Verification of the combinatorial sequence engine of the sre_yield library.

The development shallowly embeds the Python modules
sre_yield/fastdivmod.py and sre_yield/__init__.py:

* pure integer helpers (powersum, the divmod digit streams) become Lean
  functions over Nat / Int, with Python floor division modelled by Int.fdiv
  and Python while-loops modelled by fuel-bounded recursion with a
  provably sufficient fuel bound;
* the tree of sequence nodes (plain character lists, ConcatenatedSequence,
  CombinatoricsSequence, RepetitiveSequence, SaveCaptureGroup,
  ReadCaptureGroup) becomes an inductive type with a mutually recursive
  interpreter for the get_item methods;
* Python exceptions become an error type threaded through Except, and the
  mutable binding-environment dictionary becomes explicit state passing.
-/

/-- Strings are modelled as lists of characters. -/
abbrev Str := List Char

/-- The binding environment: Python dict from capture-group id to the last
captured string. -/
abbrev Env := List (Nat × Str)

/-- Kinds of Python exceptions raised by the modelled code paths. -/
inductive PyErr where
  | indexError
  | valueError
  | assertionError
  | zeroDivisionError
  deriving DecidableEq, Repr

/-- Dictionary read, Python d.get(k). -/
def envGet (d : Env) (k : Nat) : Option Str :=
  match d with
  | [] => none
  | (k', v) :: rest => if k' = k then some v else envGet rest k

/-- Dictionary write, Python d[k] = v. -/
def envSet (d : Env) (k : Nat) (v : Str) : Env :=
  match d with
  | [] => [(k, v)]
  | (k', v') :: rest => if k' = k then (k, v) :: rest else (k', v') :: envSet rest k v

/-! ## fastdivmod.py -/

/-- Loop body of Python int.bit_length, fuel-bounded (fuel = n suffices). -/
def bitLenAux : Nat → Nat → Nat
  | 0, _ => 0
  | fuel + 1, n => if n = 0 then 0 else bitLenAux fuel (n / 2) + 1

/-- Python int.bit_length for nonnegative integers. -/
def bitLen (n : Nat) : Nat := bitLenAux n n

/-- Loop of divmod_iter_basic (fastdivmod.py lines 103-110):
while x: x, m = divmod(x, by); yield m.  The loop is modelled with a fuel
bound; fuel = x is sufficient whenever 2 <= by (each step strictly
decreases x), which is the regime all claims quantify over.  For by = 1 and
x >= 1 the Python loop never terminates; this divergence is stated
separately (see the C9 theorem) using the fact that every fuel bound is
exhausted. -/
def divmodBasicAux (b : Nat) : Nat → Nat → List Nat
  | 0, _ => []
  | fuel + 1, x => if x = 0 then [] else (x % b) :: divmodBasicAux b fuel (x / b)

/-- divmod_iter_basic(x, by) from fastdivmod.py: the naive least-significant
first digit stream of x in base by. -/
def divmod_iter_basic (x b : Nat) : List Nat := divmodBasicAux b x x

/-- Inner loop of divmod_iter_chunking (fastdivmod.py lines 95-100):
for _ in range(digits_per_chunk): this_chunk, m = divmod(this_chunk, by);
yield m; break once both this_chunk and the outer remainder x are zero.
xRem is the value of the outer variable x during this inner loop. -/
def chunkInner (b xRem : Nat) : Nat → Nat → List Nat
  | 0, _ => []
  | dpc + 1, tc =>
      (tc % b) :: (if tc / b = 0 && xRem = 0 then [] else chunkInner b xRem dpc (tc / b))

/-- Outer loop of divmod_iter_chunking (fastdivmod.py lines 92-100):
while x: x, this_chunk = divmod(x, chunk); inner loop.  Fuel-bounded with
fuel = x sufficient for chunk >= 2. -/
def chunkOuter (b dpc chunk : Nat) : Nat → Nat → List Nat
  | 0, _ => []
  | fuel + 1, x =>
      if x = 0 then []
      else chunkInner b (x / chunk) dpc (x % chunk) ++ chunkOuter b dpc chunk fuel (x / chunk)

/-- divmod_iter_chunking(x, by, chunk) from fastdivmod.py lines 67-101.
For by = 1 only x = 0 is allowed (yielding a single 0), otherwise
ValueError.  With chunk = None the chunk is by ** 1024 with 1024 digits per
chunk.  With an explicit chunk, the source computes digits_per_chunk =
int(round(log(chunk)/log(by))) in floating point and then checks
by ** digits_per_chunk == chunk exactly; for chunks that are exact powers
of by (the only chunks for which the check can pass) the rounded float
equals the exact logarithm, so it is modelled by Nat.log.  A chunk that
fails the power check raises ValueError (as does chunk = 0, where Python
math.log raises ValueError); digits_per_chunk = 0 fails the source's
assert, modelled as assertionError. -/
def divmod_iter_chunking (x b : Nat) (chunk : Option Nat) : Except PyErr (List Nat) :=
  if b = 1 then
    if x ≠ 0 then .error .valueError
    else .ok [0]
  else
    match chunk with
    | none => .ok (chunkOuter b 1024 (b ^ 1024) x x)
    | some c =>
        let dpc := Nat.log b c
        if b ^ dpc ≠ c then .error .valueError
        else if dpc = 0 then .error .assertionError
        else .ok (chunkOuter b dpc c x x)

/-- Which branch divmod_iter (fastdivmod.py lines 38-64) takes: the x < by
fast path returning [x], the naive stream, or the chunked stream. -/
inductive DivmodStrategy where
  | single
  | basic
  | chunking
  deriving DecidableEq, Repr

/-- Branch selection of divmod_iter: if x < by return [x]; otherwise
compute divisions = x.bit_length() // by.bit_length() and use the basic
stream when divisions < 1024, else the chunked stream.  For by = 0 the
bit_length division is a Python division by zero. -/
def divmod_iter_strategy (x b : Nat) : Except PyErr DivmodStrategy :=
  if x < b then .ok .single
  else if b = 0 then .error .zeroDivisionError
  else if bitLen x / bitLen b < 1024 then .ok .basic
  else .ok .chunking

/-- divmod_iter(x, by) from fastdivmod.py (chunk = None): dispatch to the
selected stream.  The digit lists produced are faithful for by >= 2 and for
the x < by fast path; for by = 1 with x >= 1 the source's basic loop never
terminates (see the C9 theorem), so the fuel-truncated list returned here
in that branch stands for a diverging generator. -/
def divmod_iter (x b : Nat) : Except PyErr (List Nat) :=
  match divmod_iter_strategy x b with
  | .error e => .error e
  | .ok .single => .ok [x]
  | .ok .basic => .ok (divmod_iter_basic x b)
  | .ok .chunking => divmod_iter_chunking x b none

/-- powersum(x, low, high) from fastdivmod.py lines 113-120: for x = 1 it
returns high - low + 1, otherwise (x ** (high+1) - x ** low) // (x - 1)
with Python floor division (Int.fdiv).  Exponents are taken via toNat; the
repository only calls powersum with nonnegative exponents (a negative
exponent would produce a float in Python). -/
def powersum (x low high : Int) : Int :=
  let xm1 := x - 1
  if xm1 = 0 then high - low + 1
  else (x ^ (high + 1).toNat - x ^ low.toNat).fdiv xm1

/-- The value of a least-significant-first digit list: digit i is weighted
by b ^ i.  Agrees with Nat.ofDigits. -/
def digitsValue (b : Nat) : List Nat → Nat
  | [] => 0
  | d :: ds => d + b * digitsValue b ds

/-- The least-significant-first digits of tc in base b, zero padded to
exactly k positions.  This is what one full inner pass of the chunked
stream emits for a non-final chunk. -/
def digitsPadded (b : Nat) : Nat → Nat → List Nat
  | 0, _ => []
  | k + 1, tc => (tc % b) :: digitsPadded b k (tc / b)

/-! ## The sequence node tree (sre_yield/__init__.py)

The adapter sub_values builds a tree out of: plain Python lists of strings
(literals, ranges, character classes, the [""] list for anchors),
ConcatenatedSequence, CombinatoricsSequence, RepetitiveSequence,
SaveCaptureGroup and ReadCaptureGroup. -/

inductive SeqNode where
  /-- A plain Python list of strings (no get_item method): the leaves
  produced for literal, range, category, in_values and the anchor list
  containing one empty string. -/
  | lit (elems : List Str)
  /-- ConcatenatedSequence(*alternatives). -/
  | concat (children : List SeqNode)
  /-- CombinatoricsSequence(*components). -/
  | combin (children : List SeqNode)
  /-- RepetitiveSequence(content, lowest, highest). -/
  | rep (content : SeqNode) (lowest highest : Nat)
  /-- SaveCaptureGroup(parsed, key). -/
  | save (child : SeqNode) (key : Nat)
  /-- ReadCaptureGroup(n). -/
  | read (num : Nat)

mutual
/-- The length of a node, as computed at construction time: list length
for leaves, sum for ConcatenatedSequence, product for
CombinatoricsSequence, powersum(len(content), lowest, highest) for
RepetitiveSequence, the child's length for SaveCaptureGroup and 1 for
ReadCaptureGroup. -/
def nodeLen : SeqNode → Nat
  | .lit es => es.length
  | .concat ch => nodeLenSum ch
  | .combin ch => nodeLenProd ch
  | .rep c lo hi => (powersum (nodeLen c) lo hi).toNat
  | .save c _ => nodeLen c
  | .read _ => 1
/-- Sum of child lengths (ConcatenatedSequence.__init__). -/
def nodeLenSum : List SeqNode → Nat
  | [] => 0
  | c :: rest => nodeLen c + nodeLenSum rest
/-- Product of child lengths (CombinatoricsSequence.__init__). -/
def nodeLenProd : List SeqNode → Nat
  | [] => 1
  | c :: rest => nodeLen c * nodeLenProd rest
end

/-- One entry of the RepetitiveSequence offset table (the first component
of arbitrary_entry(j) in RepetitiveSequence.__init__):
powersum(len(content), lowest, j + lowest - 1), i.e. the index at which
strings of repetition count lowest + j start.  The incremental builder
entry_from_prev produces the same values (see offAt_succ). -/
def offAt (n lo j : Nat) : Nat :=
  (powersum n lo ((lo : Int) + j - 1)).toNat

/-- Scan for the first position t in [start, start + k) with i <= f t,
returning start + k when there is none.  On the sorted offset table this
is exactly bisect.bisect_left(offsets, (i, -1)): every stored count is
nonnegative and hence greater than -1, so the pair (i, -1) sorts before
(offset, count) exactly when i <= offset. -/
def firstGe (f : Nat → Nat) (i : Nat) : Nat → Nat → Nat
  | start, 0 => start
  | start, k + 1 => if i ≤ f start then start else firstGe f i (start + 1) k

/-- bisect.bisect_left over the whole offset table of a RepetitiveSequence
with content length n, lower bound lo and table length tl.  The source
splits the search at offset_break / index_of_offset (an optimization gated
on sys.maxsize); since the table is sorted (offAt_mono) the two-region
search returns the same index as a search of the whole table, which is
what is modelled. -/
def bisectLeft (n lo tl i : Nat) : Nat :=
  firstGe (offAt n lo) i 0 tl

/-- The adjusted bisection index of RepetitiveSequence.get_item lines
296-297: if by_bisect == len(self.offsets) or self.offsets[by_bisect][0] > i,
decrement by one. -/
def repIdx (n lo tl i : Nat) : Nat :=
  let j0 := bisectLeft n lo tl i
  if j0 = tl ∨ offAt n lo j0 > i then j0 - 1 else j0

/-- Run f over a list of digits, collecting the produced strings and
propagating the first error; the environment component of f's result is
discarded, matching result.append(content[modulus]) which indexes the
content through plain item access. -/
def mapExcept (f : Nat → Except PyErr (Str × Option Env)) :
    List Nat → Except PyErr (List Str)
  | [] => .ok []
  | m :: ms =>
      match f m with
      | .error e => .error e
      | .ok (s, _) =>
          match mapExcept f ms with
          | .error e => .error e
          | .ok rest => .ok (s :: rest)

mutual
/-- The get_item methods of the sequence classes, with the binding
environment d passed explicitly and returned (Python mutates the dict in
place).  A value of none models d = None.

* lit: plain list indexing a[i] (raises IndexError out of range, cannot
  touch d);
* concat: ConcatenatedSequence.get_item lines 186-191 -- scan the stored
  (child, length) pairs, subtracting lengths, and answer via a[i], which
  is WrappedSequence.__getitem__ and therefore calls the child's get_item
  with d = None; the loop falls through to IndexError("Too Big");
* combin: CombinatoricsSequence.get_item lines 212-229 restricted to the
  nonnegative indices produced inside the engine (the negative-index
  normalisation of the method itself is modelled by combinGetItemInt):
  bounds check, single-child fast path c[i] (again d = None), otherwise
  divmod over the children in declaration order threading d;
* rep: RepetitiveSequence.get_item lines 285-321 -- find the repetition
  count by bisection over the offset table, stream the digits of num via
  divmod_iter, look up content[modulus] (plain item access, d = None) for
  each digit, pad with content[0], reverse and join.  The source's
  materialisation of content into a local list when count > 100 and
  len(content) < 1000 indexes the same elements and is dropped;
* save: SaveCaptureGroup.get_item lines 336-340 -- WrappedSequence.get_item
  adjusts the index (for nonnegative i this clamps at the length), asks the
  child with d passed through, then records the result under its key when
  d is not None;
* read: ReadCaptureGroup.get_item lines 348-353 -- only index 0 exists,
  d = None raises ValueError, otherwise d.get(num, "fail"). -/
def nodeGet : SeqNode → Nat → Option Env → Except PyErr (Str × Option Env)
  | .lit es, i, env =>
      match es[i]? with
      | some s => .ok (s, env)
      | none => .error .indexError
  | .concat ch, i, env =>
      match concatScan ch i with
      | .ok s => .ok (s, env)
      | .error e => .error e
  | .combin [c], i, env =>
      if i ≥ nodeLenProd [c] then .error .indexError
      else
        (match nodeGet c i none with
         | .ok (s, _) => .ok (s, env)
         | .error e => .error e)
  | .combin ch, i, env =>
      if i ≥ nodeLenProd ch then .error .indexError
      else
        (match combinScan ch i env with
         | .ok (parts, env') => .ok (parts.flatten, env')
         | .error e => .error e)
  | .rep c lo hi, i, env =>
      let n := nodeLen c
      let tl := hi - lo + 1
      let j := repIdx n lo tl i
      let num := i - offAt n lo j
      let count := lo + j
      if count = 0 then .ok ([], env)
      else
        match divmod_iter num n with
        | .error e => .error e
        | .ok ds =>
            match mapExcept (fun m => nodeGet c m none) ds with
            | .error e => .error e
            | .ok parts =>
                if count < parts.length then .error .assertionError
                else if count = parts.length then .ok (parts.reverse.flatten, env)
                else
                  match nodeGet c 0 none with
                  | .error e => .error e
                  | .ok (s0, _) =>
                      .ok ((parts ++ List.replicate (count - parts.length) s0).reverse.flatten, env)
  | .save c key, i, env =>
      let i' := if i > nodeLen c then nodeLen c else i
      match nodeGet c i' env with
      | .error e => .error e
      | .ok (rv, env') => .ok (rv, env'.map (fun d => envSet d key rv))
  | .read num, i, env =>
      if i ≠ 0 then .error .indexError
      else
        match env with
        | none => .error .valueError
        | some d => .ok ((envGet d num).getD ['f', 'a', 'i', 'l'], env)
/-- The scan loop of ConcatenatedSequence.get_item: d is never forwarded
(the child is indexed with plain item access a[i]). -/
def concatScan : List SeqNode → Nat → Except PyErr Str
  | [], _ => .error .indexError
  | a :: rest, i =>
      if i < nodeLen a then
        match nodeGet a i none with
        | .ok (s, _) => .ok s
        | .error e => .error e
      else concatScan rest (i - nodeLen a)
/-- The divmod loop of CombinatoricsSequence.get_item: i, mod = divmod(i,
c_len); children that are sequence nodes receive d (hasattr(c, "get_item")),
plain lists are indexed directly; both cases are nodeGet, whose lit case
ignores and returns d unchanged. -/
def combinScan : List SeqNode → Nat → Option Env → Except PyErr (List Str × Option Env)
  | [], _, env => .ok ([], env)
  | c :: rest, i, env =>
      match nodeGet c (i % nodeLen c) env with
      | .error e => .error e
      | .ok (s, env') =>
          match combinScan rest (i / nodeLen c) env' with
          | .error e => .error e
          | .ok (parts, env'') => .ok (s :: parts, env'')
end

/-- The string a node yields at index i when looked up without an
environment (d = None), with an empty string as the don't-care value on
error paths. -/
def valOf (c : SeqNode) (i : Nat) : Str :=
  match nodeGet c i none with
  | .ok (s, _) => s
  | .error _ => []

/-! ## Well-formedness -/

mutual
/-- Structural invariants guaranteed by the adapter sub_values: every
RepetitiveSequence is built by max_repeat_values, which clamps
max_count = max(max_count, min_count), so lowest <= highest. -/
def wfB : SeqNode → Bool
  | .lit _ => true
  | .concat ch => wfListB ch
  | .combin ch => wfListB ch
  | .rep c lo hi => decide (lo ≤ hi) && wfB c
  | .save c _ => wfB c
  | .read _ => true
def wfListB : List SeqNode → Bool
  | [] => true
  | c :: rest => wfB c && wfListB rest
end

mutual
/-- True when the tree contains no ReadCaptureGroup node (the pattern has
no backreference). -/
def noReadB : SeqNode → Bool
  | .lit _ => true
  | .concat ch => noReadListB ch
  | .combin ch => noReadListB ch
  | .rep c _ _ => noReadB c
  | .save c _ => noReadB c
  | .read _ => false
def noReadListB : List SeqNode → Bool
  | [] => true
  | c :: rest => noReadB c && noReadListB rest
end

/-- The soundness property of a node: every lookup at an in-range index
succeeds, its string value does not depend on the environment passed in
(it equals the value of the d = None run), and some environment comes
back. -/
def GoodNode (c : SeqNode) : Prop :=
  ∀ i, i < nodeLen c → ∀ env, ∃ env', nodeGet c i env = .ok (valOf c i, env')

/-- The mixed-radix digits of i over the children in declaration order,
each mapped to the corresponding child value: what the divmod loop of
CombinatoricsSequence.get_item appends. -/
def combinParts : List SeqNode → Nat → List Str
  | [], _ => []
  | c :: rest, i => valOf c (i % nodeLen c) :: combinParts rest (i / nodeLen c)

/-! ## Slicing (__init__.py lines 72-110, 151-177) -/

/-- _adjust_index(n, size) from __init__.py lines 102-110: add size to a
negative index; if the result is still negative raise
IndexError("Out of range"); clamp values above size down to size. -/
def adjust_index (n : Int) (size : Nat) : Except PyErr Int :=
  let n1 := if n < 0 then n + size else n
  if n1 < 0 then .error .indexError
  else if n1 > (size : Int) then .ok size
  else .ok n1

/-- _sign(x) from __init__.py lines 151-155: 1 for positive x, otherwise
-1 (including x = 0). -/
def pySign (x : Int) : Int := if x > 0 then 1 else -1

/-- slice_indices(slice_obj, size) from __init__.py lines 72-99: step
defaults to 1; an omitted start is 0 (positive step) or size - 1; an
omitted stop is size (positive step) or -1; present start/stop go through
_adjust_index. -/
def slice_indices (start stop step : Option Int) (size : Nat) :
    Except PyErr (Int × Int × Int) :=
  let step1 : Int := match step with | none => 1 | some s => s
  match (match start with
         | none => if step1 > 0 then Except.ok 0 else Except.ok ((size : Int) - 1)
         | some st => adjust_index st size) with
  | .error e => .error e
  | .ok start1 =>
      match (match stop with
             | none => if step1 > 0 then Except.ok (size : Int) else Except.ok (-1)
             | some sp => adjust_index sp size) with
      | .error e => .error e
      | .ok stop1 => .ok (start1, stop1, step1)

/-- SlicedSequence.__init__ lines 161-172: normalise the slice, then
compute length = (stop - start + step - sign(step)) // step with Python
floor division.  The source performs no step = 0 check anywhere; with
step = 0 the division raises ZeroDivisionError, modelled here as the
error branch guarding the fdiv. -/
def slicedSequenceInit (start stop step : Option Int) (size : Nat) :
    Except PyErr (Int × Int × Int × Int) :=
  match slice_indices start stop step size with
  | .error e => .error e
  | .ok (start1, stop1, step1) =>
      if step1 = 0 then .error .zeroDivisionError
      else .ok (start1, stop1, step1, (stop1 - start1 + step1 - pySign step1).fdiv step1)

/-! ## Top-level integer indexing -/

/-- S[i] for an integer index on a top-level RegexMembershipSequence whose
raw tree is the CombinatoricsSequence built by sub_values for the whole
pattern: WrappedSequence.__getitem__ (lines 134-148, non-slice branch)
adjusts i against the length, RegexMembershipSequence.get_item (lines
397-408) creates a fresh environment exactly when has_groupref is set,
WrappedSequence.get_item (lines 123-127) adjusts again and hands off to
raw.get_item. -/
def topGetItem (raw : SeqNode) (hasGroupref : Bool) (i : Int) : Except PyErr Str :=
  match adjust_index i (nodeLen raw) with
  | .error e => .error e
  | .ok i1 =>
      match adjust_index i1 (nodeLen raw) with
      | .error e => .error e
      | .ok i2 =>
          match nodeGet raw i2.toNat (if hasGroupref then some [] else none) with
          | .error e => .error e
          | .ok (s, _) => .ok s

/-! ## CombinatoricsSequence with Python integer indices -/

/-- The negative-index normalisation of CombinatoricsSequence.get_item
line 214-215: if i < 0: i += self.length. -/
def normIdx (i : Int) (L : Nat) : Int := if i < 0 then i + L else i

/-- CombinatoricsSequence.get_item(i, d) for a Python integer i (lines
212-229): normalise a negative index by adding the total product length,
raise IndexError outside [0, length), otherwise run the body (the bounds
re-check inside nodeGet is a no-op for the already-validated index). -/
def combinGetItemInt (ch : List SeqNode) (i : Int) (env : Option Env) :
    Except PyErr (Str × Option Env) :=
  if normIdx i (nodeLenProd ch) < 0 ∨ normIdx i (nodeLenProd ch) ≥ (nodeLenProd ch : Int)
  then .error .indexError
  else nodeGet (.combin ch) (normIdx i (nodeLenProd ch)).toNat env

/-! ## powersum lemmas -/

theorem digitsValue_eq_ofDigits (b : Nat) (l : List Nat) :
    digitsValue b l = Nat.ofDigits b l := by
  induction l with
  | nil => simp [digitsValue]
  | cons d ds ih => simp [digitsValue, Nat.ofDigits_cons, ih]

theorem powersum_eq_range (b : Int) (lo N : Nat) :
    powersum b lo ((lo : Int) + N) = ∑ t ∈ Finset.range (N + 1), b ^ (lo + t) := by
  have hexp1 : (((lo : Int) + N) + 1).toNat = lo + N + 1 := by omega
  have hexp2 : ((lo : Int)).toNat = lo := by omega
  unfold powersum
  by_cases hb : b - 1 = 0
  · have hb1 : b = 1 := by omega
    subst hb1
    simp only [if_pos hb, one_pow]
    rw [Finset.sum_const, Finset.card_range, nsmul_eq_mul, mul_one]
    push_cast
    ring
  · simp only [if_neg hb, hexp1, hexp2]
    have hS : ∑ t ∈ Finset.range (N + 1), b ^ (lo + t)
        = b ^ lo * ∑ t ∈ Finset.range (N + 1), b ^ t := by
      rw [Finset.mul_sum]
      refine Finset.sum_congr rfl ?_
      intro t _
      rw [pow_add]
    have hgeom : b ^ (lo + N + 1) - b ^ lo
        = (b - 1) * (b ^ lo * ∑ t ∈ Finset.range (N + 1), b ^ t) := by
      have h1 : (∑ t ∈ Finset.range (N + 1), b ^ t) * (b - 1) = b ^ (N + 1) - 1 :=
        geom_sum_mul b (N + 1)
      have h2 : b ^ (lo + N + 1) = b ^ lo * b ^ (N + 1) := by
        rw [← pow_add]
        congr 1
      rw [h2]
      calc b ^ lo * b ^ (N + 1) - b ^ lo
          = b ^ lo * (b ^ (N + 1) - 1) := by ring
        _ = b ^ lo * ((∑ t ∈ Finset.range (N + 1), b ^ t) * (b - 1)) := by rw [h1]
        _ = (b - 1) * (b ^ lo * ∑ t ∈ Finset.range (N + 1), b ^ t) := by ring
    rw [hgeom, hS, Int.mul_fdiv_cancel_left _ hb]

theorem powersum_eq_Icc (b : Int) (lo hi : Nat) (h : lo ≤ hi) :
    powersum b lo hi = ∑ k ∈ Finset.Icc lo hi, b ^ k := by
  obtain ⟨N, rfl⟩ : ∃ N, hi = lo + N := ⟨hi - lo, by omega⟩
  rw [Nat.cast_add, powersum_eq_range]
  induction N with
  | zero => simp
  | succ n ih =>
      have h1 : lo ≤ lo + n := by omega
      rw [Finset.sum_range_succ, ← add_assoc, Finset.sum_Icc_succ_top (by omega), ← ih h1]

theorem powersum_toNat (b lo hi : Nat) (h : lo ≤ hi) :
    (powersum b lo hi).toNat = ∑ k ∈ Finset.Icc lo hi, b ^ k := by
  rw [powersum_eq_Icc _ _ _ h]
  have : (∑ k ∈ Finset.Icc lo hi, ((b : Int)) ^ k) = ((∑ k ∈ Finset.Icc lo hi, b ^ k : Nat) : Int) := by
    push_cast
    rfl
  rw [this, Int.toNat_natCast]

/-- A standalone form of the geometric-sum identity used both for powersum
correctness and for the exactness of the closed-form division. -/
theorem pow_sub_pow_factor (b : Int) (lo N : Nat) :
    b ^ (lo + N + 1) - b ^ lo
      = (b - 1) * (b ^ lo * ∑ t ∈ Finset.range (N + 1), b ^ t) := by
  have h1 : (∑ t ∈ Finset.range (N + 1), b ^ t) * (b - 1) = b ^ (N + 1) - 1 :=
    geom_sum_mul b (N + 1)
  have h2 : b ^ (lo + N + 1) = b ^ lo * b ^ (N + 1) := by
    rw [← pow_add]
    congr 1
  rw [h2]
  calc b ^ lo * b ^ (N + 1) - b ^ lo
      = b ^ lo * (b ^ (N + 1) - 1) := by ring
    _ = b ^ lo * ((∑ t ∈ Finset.range (N + 1), b ^ t) * (b - 1)) := by rw [h1]
    _ = (b - 1) * (b ^ lo * ∑ t ∈ Finset.range (N + 1), b ^ t) := by ring

/-! ## digit stream lemmas -/

theorem divmodBasicAux_eq_digits (b : Nat) (hb : 2 ≤ b) :
    ∀ fuel x, x ≤ fuel → divmodBasicAux b fuel x = Nat.digits b x := by
  intro fuel
  induction fuel with
  | zero =>
      intro x hx
      have hx0 : x = 0 := by omega
      subst hx0
      simp [divmodBasicAux]
  | succ f ih =>
      intro x hx
      by_cases hx0 : x = 0
      · subst hx0
        simp [divmodBasicAux]
      · have hxpos : 0 < x := Nat.pos_of_ne_zero hx0
        have hdiv : x / b < x := Nat.div_lt_self hxpos (by omega)
        rw [Nat.digits_def' (by omega : 1 < b) hxpos]
        simp only [divmodBasicAux, if_neg hx0]
        rw [ih (x / b) (by omega)]

theorem divmod_iter_basic_eq_digits (x b : Nat) (hb : 2 ≤ b) :
    divmod_iter_basic x b = Nat.digits b x :=
  divmodBasicAux_eq_digits b hb x x le_rfl

theorem digitsPadded_length (b k tc : Nat) : (digitsPadded b k tc).length = k := by
  induction k generalizing tc with
  | zero => rfl
  | succ k ih => simp [digitsPadded, ih]

theorem chunkInner_of_xRem_ne (b xRem : Nat) (hx : xRem ≠ 0) :
    ∀ dpc tc, chunkInner b xRem dpc tc = digitsPadded b dpc tc := by
  intro dpc
  induction dpc with
  | zero => intro tc; rfl
  | succ k ih =>
      intro tc
      simp only [chunkInner, digitsPadded]
      rw [if_neg (by simp [hx]), ih]

theorem chunkInner_last (b : Nat) (hb : 2 ≤ b) :
    ∀ dpc tc, tc ≠ 0 → tc < b ^ dpc → chunkInner b 0 dpc tc = Nat.digits b tc := by
  intro dpc
  induction dpc with
  | zero =>
      intro tc htc hlt
      simp at hlt
      omega
  | succ k ih =>
      intro tc htc hlt
      rw [Nat.digits_def' (by omega : 1 < b) (Nat.pos_of_ne_zero htc)]
      simp only [chunkInner]
      by_cases hq : tc / b = 0
      · rw [if_pos (by simp [hq]), hq]
        simp
      · rw [if_neg (by simp [hq])]
        congr 1
        refine ih (tc / b) hq ?_
        have hb0 : 0 < b := by omega
        rw [Nat.div_lt_iff_lt_mul hb0]
        calc tc < b ^ (k + 1) := hlt
          _ = b ^ k * b := by rw [pow_succ]

theorem digits_add_pow_mul (b : Nat) (hb : 2 ≤ b) :
    ∀ k m n, m < b ^ k → n ≠ 0 →
      Nat.digits b (m + b ^ k * n) = digitsPadded b k m ++ Nat.digits b n := by
  intro k
  induction k with
  | zero =>
      intro m n hm _
      have hm0 : m = 0 := by simpa using hm
      subst hm0
      simp [digitsPadded]
  | succ k ih =>
      intro m n hm hn
      have hb0 : 0 < b := by omega
      have hpos : 0 < m + b ^ (k + 1) * n := by
        have h1 : 0 < b ^ (k + 1) := Nat.pos_pow_of_pos _ hb0
        have h2 : 0 < n := Nat.pos_of_ne_zero hn
        positivity
      have hrw : m + b ^ (k + 1) * n = m + b * (b ^ k * n) := by ring
      rw [Nat.digits_def' (by omega : 1 < b) hpos]
      have hmod : (m + b ^ (k + 1) * n) % b = m % b := by
        rw [hrw, Nat.add_mul_mod_self_left]
      have hdiv : (m + b ^ (k + 1) * n) / b = m / b + b ^ k * n := by
        rw [hrw, Nat.add_mul_div_left _ _ hb0]
      rw [hmod, hdiv]
      simp only [digitsPadded]
      rw [ih (m / b) n ?_ hn]
      · simp
      · rw [Nat.div_lt_iff_lt_mul hb0]
        calc m < b ^ (k + 1) := hm
          _ = b ^ k * b := by rw [pow_succ]

theorem chunkOuter_zero (b dpc chunk fuel : Nat) : chunkOuter b dpc chunk fuel 0 = [] := by
  cases fuel <;> rfl

theorem chunkOuter_eq_digits (b dpc : Nat) (hb : 2 ≤ b) (hdpc : 1 ≤ dpc) :
    ∀ fuel x, x ≤ fuel → chunkOuter b dpc (b ^ dpc) fuel x = Nat.digits b x := by
  intro fuel
  induction fuel with
  | zero =>
      intro x hx
      have hx0 : x = 0 := by omega
      subst hx0
      rw [Nat.digits_zero]
      rfl
  | succ f ih =>
      intro x hx
      by_cases hx0 : x = 0
      · subst hx0
        simp [chunkOuter]
      · have hchunk2 : 2 ≤ b ^ dpc := by
          calc 2 ≤ b := hb
            _ = b ^ 1 := (pow_one b).symm
            _ ≤ b ^ dpc := Nat.pow_le_pow_right (by omega) hdpc
        have hchunk0 : 0 < b ^ dpc := by omega
        have hmodlt : x % b ^ dpc < b ^ dpc := Nat.mod_lt _ hchunk0
        simp only [chunkOuter, if_neg hx0]
        by_cases hq : x / b ^ dpc = 0
        · have hxlt : x < b ^ dpc := by
            rwa [Nat.div_eq_zero_iff (by omega)] at hq
          have hmodx : x % b ^ dpc = x := Nat.mod_eq_of_lt hxlt
          rw [hq, hmodx, chunkOuter_zero, chunkInner_last b hb dpc x hx0 hxlt]
          simp
        · have hqlt : x / b ^ dpc < x := Nat.div_lt_self (Nat.pos_of_ne_zero hx0) (by omega)
          rw [chunkInner_of_xRem_ne b _ hq, ih (x / b ^ dpc) (by omega)]
          have hdecomp : x % b ^ dpc + b ^ dpc * (x / b ^ dpc) = x := Nat.mod_add_div x (b ^ dpc)
          calc digitsPadded b dpc (x % b ^ dpc) ++ Nat.digits b (x / b ^ dpc)
              = Nat.digits b (x % b ^ dpc + b ^ dpc * (x / b ^ dpc)) :=
                (digits_add_pow_mul b hb dpc _ _ hmodlt hq).symm
            _ = Nat.digits b x := by rw [hdecomp]

/-- divmod_iter for base at least 2: the fast path yields the single digit
x when x < by (including the single 0 for x = 0); both loop strategies
yield exactly the digits of x. -/
theorem divmod_iter_eq (x b : Nat) (hb : 2 ≤ b) :
    divmod_iter x b = .ok (if x = 0 then [0] else Nat.digits b x) := by
  unfold divmod_iter divmod_iter_strategy
  by_cases hxb : x < b
  · rw [if_pos hxb]
    by_cases hx0 : x = 0
    · subst hx0
      simp
    · rw [if_neg hx0]
      have : Nat.digits b x = [x] := by
        rw [Nat.digits_def' (by omega : 1 < b) (Nat.pos_of_ne_zero hx0),
          Nat.mod_eq_of_lt hxb, Nat.div_eq_of_lt hxb]
        simp
      simp [this]
  · have hx0 : x ≠ 0 := by omega
    rw [if_neg hxb, if_neg (by omega : ¬b = 0), if_neg hx0]
    by_cases hbl : bitLen x / bitLen b < 1024
    · rw [if_pos hbl]
      rw [divmod_iter_basic_eq_digits x b hb]
    · rw [if_neg hbl]
      unfold divmod_iter_chunking
      rw [if_neg (by omega : ¬b = 1)]
      rw [chunkOuter_eq_digits b 1024 hb (by omega) x x le_rfl]

/-! ## Claim theorems for the fastdivmod component -/

/-- C4: powersum(b, lo, hi) equals the exact integer sum of b^k for k from
lo to hi inclusive, for every integer b >= 0 and 0 <= lo <= hi, including
the b = 1 case (where the source returns hi - lo + 1) and the b = 0 case;
moreover for b != 1 the closed form (b^(hi+1) - b^lo) divided by (b - 1)
is an exact integer division, i.e. b - 1 divides b^(hi+1) - b^lo. -/
theorem powersum_eq_sum_pow (b : Int) (lo hi : Nat) (_hb : 0 ≤ b) (h : lo ≤ hi) :
    powersum b lo hi = ∑ k ∈ Finset.Icc lo hi, b ^ k ∧
      (b ≠ 1 → (b - 1) ∣ (b ^ (hi + 1) - b ^ lo)) := by
  constructor
  · exact powersum_eq_Icc b lo hi h
  · intro _
    obtain ⟨N, rfl⟩ : ∃ N, hi = lo + N := ⟨hi - lo, by omega⟩
    exact ⟨_, pow_sub_pow_factor b lo N⟩

/-- Witness for C4 at b = 3, lo = 1, hi = 2: powersum evaluates to
3 + 9 = 12 and the theorem applies. -/
theorem powersum_eq_sum_pow_witness :
    powersum 3 1 2 = 12 ∧
      (powersum 3 1 2 = ∑ k ∈ Finset.Icc 1 2, (3 : Int) ^ k ∧
        ((3 : Int) ≠ 1 → ((3 : Int) - 1) ∣ ((3 : Int) ^ (2 + 1) - 3 ^ 1))) :=
  ⟨by decide, powersum_eq_sum_pow 3 1 2 (by decide) (by decide)⟩

/-- C3: for every n >= 0 and base b >= 2, the digit stream divmod_iter
yields digits whose least-significant-first weighted sum reconstructs n
exactly, and for every valid chunk b^k (k >= 1) the chunked stream yields
exactly the same digit list as the naive stream. -/
theorem divmod_iter_reconstructs_and_chunking_agrees (n b k : Nat)
    (hb : 2 ≤ b) (hk : 1 ≤ k) :
    (∃ ds, divmod_iter n b = .ok ds ∧ digitsValue b ds = n) ∧
      divmod_iter_chunking n b (some (b ^ k)) = .ok (divmod_iter_basic n b) := by
  constructor
  · refine ⟨if n = 0 then [0] else Nat.digits b n, divmod_iter_eq n b hb, ?_⟩
    by_cases hn : n = 0
    · subst hn
      simp [digitsValue]
    · rw [if_neg hn, digitsValue_eq_ofDigits, Nat.ofDigits_digits]
  · unfold divmod_iter_chunking
    rw [if_neg (by omega : ¬b = 1)]
    simp only [Nat.log_pow (by omega : 1 < b), if_neg (by omega : ¬b ^ k ≠ b ^ k),
      if_neg (by omega : ¬k = 0)]
    rw [chunkOuter_eq_digits b k hb hk n n le_rfl, divmod_iter_basic_eq_digits n b hb]

/-- Witness for C3 at n = 1234, b = 10, k = 2. -/
theorem divmod_iter_reconstructs_witness :
    (2 ≤ 10 ∧ 1 ≤ 2) ∧
      ((∃ ds, divmod_iter 1234 10 = .ok ds ∧ digitsValue 10 ds = 1234) ∧
        divmod_iter_chunking 1234 10 (some (10 ^ 2)) = .ok (divmod_iter_basic 1234 10)) :=
  ⟨⟨by decide, by decide⟩, divmod_iter_reconstructs_and_chunking_agrees 1234 10 2 (by decide) (by decide)⟩

/-- Counterexample to C8 as stated: divmod_iter(0, 2) does not yield an
empty digit stream; the x < by fast path of divmod_iter returns the single
digit [0]. -/
theorem divmod_iter_zero_counterexample :
    divmod_iter 0 2 = .ok [0] ∧ divmod_iter 0 2 ≠ .ok [] := by
  constructor
  · rfl
  · intro h
    have h2 : divmod_iter 0 2 = .ok [0] := rfl
    rw [h2] at h
    injection h with h3
    exact List.cons_ne_nil 0 [] h3

/-- C8 amended: for x = 0 every base b >= 1 (including b = 1) takes the
x < by fast path of divmod_iter and yields the single digit 0 (not an
empty stream); the underlying naive stream yields nothing for x = 0, the
chunked stream for b >= 2 also yields nothing, and the special case b = 1,
x = 0 of the chunked stream yields a single 0. -/
theorem divmod_iter_zero_spec (b : Nat) (hb : 1 ≤ b) :
    divmod_iter 0 b = .ok [0] ∧ divmod_iter_basic 0 b = [] ∧
      (2 ≤ b → divmod_iter_chunking 0 b none = .ok []) ∧
      divmod_iter_chunking 0 1 none = .ok [0] := by
  refine ⟨?_, rfl, ?_, rfl⟩
  · unfold divmod_iter divmod_iter_strategy
    rw [if_pos (by omega : 0 < b)]
  · intro h2b
    unfold divmod_iter_chunking
    rw [if_neg (by omega : ¬b = 1)]
    rfl

/-- Witness for C8's amended statement at both b = 1 (the fast-path case
the repository's own test asserts) and b = 2. -/
theorem divmod_iter_zero_spec_witness :
    (1 ≤ 1 ∧ divmod_iter 0 1 = .ok [0] ∧ divmod_iter_basic 0 1 = [] ∧
      (2 ≤ 1 → divmod_iter_chunking 0 1 none = .ok []) ∧
      divmod_iter_chunking 0 1 none = .ok [0]) ∧
    (1 ≤ 2 ∧ divmod_iter 0 2 = .ok [0] ∧ divmod_iter_basic 0 2 = [] ∧
      (2 ≤ 2 → divmod_iter_chunking 0 2 none = .ok []) ∧
      divmod_iter_chunking 0 1 none = .ok [0]) :=
  ⟨⟨by decide, divmod_iter_zero_spec 1 (by decide)⟩,
   ⟨by decide, divmod_iter_zero_spec 2 (by decide)⟩⟩

/-- C9 (the code contradicts its own test test_divmod_iter_special_case):
for any x with 1 <= x and fewer than 1024 bits, divmod_iter(x, 1) does not
raise ValueError.  Since x.bit_length() // 1.bit_length() =
x.bit_length() < 1024, the dispatcher selects the naive stream, whose loop
while x: x, m = divmod(x, 1) never changes x: every fuel bound is
exhausted producing only zeros, i.e. the generator diverges instead of
raising.  Only the chunked stream (selected when x has at least 1024 bits)
raises the documented ValueError. -/
theorem divmod_iter_one_diverges (x : Nat) (hx : 1 ≤ x) (hbits : bitLen x < 1024) :
    divmod_iter_strategy x 1 = .ok .basic ∧
      (∀ fuel, divmodBasicAux 1 fuel x = List.replicate fuel 0) ∧
      divmod_iter_chunking x 1 none = .error .valueError := by
  refine ⟨?_, ?_, ?_⟩
  · unfold divmod_iter_strategy
    have h1 : bitLen 1 = 1 := rfl
    rw [if_neg (by omega : ¬x < 1), if_neg (by omega : ¬(1 : Nat) = 0), h1, Nat.div_one,
      if_pos hbits]
  · intro fuel
    induction fuel with
    | zero => rfl
    | succ f ih =>
        simp only [divmodBasicAux, if_neg (by omega : ¬x = 0)]
        rw [Nat.mod_one, Nat.div_one, ih]
        rfl
  · unfold divmod_iter_chunking
    rw [if_pos rfl, if_pos (by omega : x ≠ 0)]

/-- Witness for C9 at x = 1, the input of the repository's own test. -/
theorem divmod_iter_one_diverges_witness :
    (1 ≤ 1 ∧ bitLen 1 < 1024) ∧
      (divmod_iter_strategy 1 1 = .ok .basic ∧
        (∀ fuel, divmodBasicAux 1 fuel 1 = List.replicate fuel 0) ∧
        divmod_iter_chunking 1 1 none = .error .valueError) :=
  ⟨⟨by decide, by decide⟩, divmod_iter_one_diverges 1 (by decide) (by decide)⟩

/-! ## Equation lemmas for the interpreter -/

theorem nodeGet_lit (es : List Str) (i : Nat) (env : Option Env) :
    nodeGet (.lit es) i env =
      match es[i]? with
      | some s => .ok (s, env)
      | none => .error .indexError := rfl

theorem nodeGet_concat (ch : List SeqNode) (i : Nat) (env : Option Env) :
    nodeGet (.concat ch) i env =
      match concatScan ch i with
      | .ok s => .ok (s, env)
      | .error e => .error e := rfl

theorem nodeGet_combin_single (c : SeqNode) (i : Nat) (env : Option Env) :
    nodeGet (.combin [c]) i env =
      if i ≥ nodeLenProd [c] then .error .indexError
      else
        match nodeGet c i none with
        | .ok (s, _) => .ok (s, env)
        | .error e => .error e := rfl

theorem nodeGet_combin_nil (i : Nat) (env : Option Env) :
    nodeGet (.combin []) i env =
      if i ≥ nodeLenProd [] then .error .indexError
      else
        match combinScan [] i env with
        | .ok (parts, env') => .ok (parts.flatten, env')
        | .error e => .error e := rfl

theorem nodeGet_combin_cons2 (c1 c2 : SeqNode) (rest : List SeqNode) (i : Nat) (env : Option Env) :
    nodeGet (.combin (c1 :: c2 :: rest)) i env =
      if i ≥ nodeLenProd (c1 :: c2 :: rest) then .error .indexError
      else
        match combinScan (c1 :: c2 :: rest) i env with
        | .ok (parts, env') => .ok (parts.flatten, env')
        | .error e => .error e := rfl

theorem nodeGet_rep (c : SeqNode) (lo hi i : Nat) (env : Option Env) :
    nodeGet (.rep c lo hi) i env =
      (if lo + repIdx (nodeLen c) lo (hi - lo + 1) i = 0 then .ok ([], env)
       else
         match divmod_iter (i - offAt (nodeLen c) lo (repIdx (nodeLen c) lo (hi - lo + 1) i)) (nodeLen c) with
         | .error e => .error e
         | .ok ds =>
             match mapExcept (fun m => nodeGet c m none) ds with
             | .error e => .error e
             | .ok parts =>
                 if lo + repIdx (nodeLen c) lo (hi - lo + 1) i < parts.length then
                   .error .assertionError
                 else if lo + repIdx (nodeLen c) lo (hi - lo + 1) i = parts.length then
                   .ok (parts.reverse.flatten, env)
                 else
                   match nodeGet c 0 none with
                   | .error e => .error e
                   | .ok (s0, _) =>
                       .ok ((parts ++ List.replicate
                              (lo + repIdx (nodeLen c) lo (hi - lo + 1) i - parts.length) s0).reverse.flatten,
                            env)) := rfl

theorem nodeGet_save (c : SeqNode) (key i : Nat) (env : Option Env) :
    nodeGet (.save c key) i env =
      match nodeGet c (if i > nodeLen c then nodeLen c else i) env with
      | .error e => .error e
      | .ok (rv, env') => .ok (rv, env'.map (fun d => envSet d key rv)) := rfl

theorem nodeGet_read (num i : Nat) (env : Option Env) :
    nodeGet (.read num) i env =
      if i ≠ 0 then .error .indexError
      else
        match env with
        | none => .error .valueError
        | some d => .ok ((envGet d num).getD ['f', 'a', 'i', 'l'], env) := rfl

/-! ## Offset table lemmas -/

theorem offAt_eq_sum (n lo j : Nat) :
    offAt n lo j = ∑ t ∈ Finset.range j, n ^ (lo + t) := by
  cases j with
  | zero =>
      unfold offAt powersum
      simp only [Nat.cast_zero]
      by_cases h : (n : Int) - 1 = 0
      · rw [if_pos h]
        simp only [Finset.range_zero, Finset.sum_empty]
        omega
      · rw [if_neg h]
        have h1 : (((lo : Int) + 0 - 1) + 1).toNat = lo := by omega
        have h2 : ((lo : Int)).toNat = lo := by omega
        rw [h1, h2, sub_self, Int.zero_fdiv]
        simp
  | succ m =>
      have harg : ((lo : Int) + (m + 1 : Nat) - 1) = (lo : Int) + m := by push_cast; ring
      unfold offAt
      rw [harg, powersum_eq_range]
      have : (∑ t ∈ Finset.range (m + 1), ((n : Int)) ^ (lo + t))
          = ((∑ t ∈ Finset.range (m + 1), n ^ (lo + t) : Nat) : Int) := by
        push_cast
        rfl
      rw [this, Int.toNat_natCast]

theorem offAt_zero (n lo : Nat) : offAt n lo 0 = 0 := by
  rw [offAt_eq_sum]
  simp

theorem offAt_succ (n lo j : Nat) : offAt n lo (j + 1) = offAt n lo j + n ^ (lo + j) := by
  rw [offAt_eq_sum, offAt_eq_sum, Finset.sum_range_succ]

theorem offAt_mono (n lo : Nat) {j j' : Nat} (h : j ≤ j') : offAt n lo j ≤ offAt n lo j' := by
  rw [offAt_eq_sum, offAt_eq_sum]
  exact Finset.sum_le_sum_of_subset (Finset.range_subset.mpr h)

theorem offAt_lt_succ (n lo j : Nat) (hn : 1 ≤ n) : offAt n lo j < offAt n lo (j + 1) := by
  rw [offAt_succ]
  have : 0 < n ^ (lo + j) := Nat.pos_pow_of_pos _ (by omega)
  omega

theorem offAt_strict_mono (n lo : Nat) (hn : 1 ≤ n) {j j' : Nat} (h : j < j') :
    offAt n lo j < offAt n lo j' :=
  lt_of_lt_of_le (offAt_lt_succ n lo j hn) (offAt_mono n lo h)

/-- The length computed by RepetitiveSequence.__init__ is the offset just
past the last repetition count. -/
theorem nodeLen_rep (c : SeqNode) (lo hi : Nat) (h : lo ≤ hi) :
    nodeLen (.rep c lo hi) = offAt (nodeLen c) lo (hi - lo + 1) := by
  unfold offAt
  show (powersum (nodeLen c) lo hi).toNat = _
  congr 1
  congr 1
  omega

/-! ## Bisection lemmas -/

theorem firstGe_ge (f : Nat → Nat) (i : Nat) : ∀ k s, s ≤ firstGe f i s k := by
  intro k
  induction k with
  | zero => intro s; exact le_rfl
  | succ m ih =>
      intro s
      unfold firstGe
      by_cases h : i ≤ f s
      · rw [if_pos h]
      · rw [if_neg h]
        exact le_trans (by omega) (ih (s + 1))

theorem firstGe_le (f : Nat → Nat) (i : Nat) : ∀ k s, firstGe f i s k ≤ s + k := by
  intro k
  induction k with
  | zero => intro s; exact Nat.le_refl s
  | succ m ih =>
      intro s
      unfold firstGe
      by_cases h : i ≤ f s
      · rw [if_pos h]; omega
      · rw [if_neg h]
        have := ih (s + 1)
        omega

theorem firstGe_min (f : Nat → Nat) (i : Nat) :
    ∀ k s t, s ≤ t → t < firstGe f i s k → f t < i := by
  intro k
  induction k with
  | zero =>
      intro s t hst ht
      unfold firstGe at ht
      omega
  | succ m ih =>
      intro s t hst ht
      unfold firstGe at ht
      by_cases h : i ≤ f s
      · rw [if_pos h] at ht; omega
      · rw [if_neg h] at ht
        by_cases hts : t = s
        · subst hts; omega
        · exact ih (s + 1) t (by omega) ht

theorem firstGe_hit (f : Nat → Nat) (i : Nat) :
    ∀ k s, firstGe f i s k < s + k → i ≤ f (firstGe f i s k) := by
  intro k
  induction k with
  | zero =>
      intro s h
      unfold firstGe at h
      omega
  | succ m ih =>
      intro s h
      unfold firstGe at h ⊢
      by_cases hc : i ≤ f s
      · rw [if_pos hc] at h ⊢; exact hc
      · rw [if_neg hc] at h ⊢
        exact ih (s + 1) (by omega)

theorem firstGe_found (f : Nat → Nat) (i : Nat) :
    ∀ k s t, s ≤ t → t < s + k → i ≤ f t → firstGe f i s k ≤ t := by
  intro k
  induction k with
  | zero => intro s t h1 h2 _; omega
  | succ m ih =>
      intro s t h1 h2 h3
      unfold firstGe
      by_cases hc : i ≤ f s
      · rw [if_pos hc]; exact h1
      · rw [if_neg hc]
        have hts : s ≠ t := by
          intro he
          subst he
          exact hc h3
        exact ih (s + 1) t (by omega) (by omega) h3

/-- The two-step bisection of RepetitiveSequence.get_item lands on the
unique table entry whose offset bracket contains i. -/
theorem repIdx_eq (n lo tl i j : Nat) (hn : 1 ≤ n) (hj : j < tl)
    (h1 : offAt n lo j ≤ i) (h2 : i < offAt n lo (j + 1)) :
    repIdx n lo tl i = j := by
  unfold repIdx bisectLeft
  by_cases hcase : i ≤ offAt n lo j
  · have hle : firstGe (offAt n lo) i 0 tl ≤ j :=
      firstGe_found (offAt n lo) i tl 0 j (by omega) (by omega) hcase
    have hge : j ≤ firstGe (offAt n lo) i 0 tl := by
      by_contra hlt
      push_neg at hlt
      have hhit := firstGe_hit (offAt n lo) i tl 0 (by omega)
      have hmono := offAt_strict_mono n lo hn hlt
      omega
    have hj0 : firstGe (offAt n lo) i 0 tl = j := le_antisymm hle hge
    have hcond : ¬(j = tl ∨ offAt n lo j > i) := by
      push_neg
      exact ⟨by omega, by omega⟩
    rw [hj0, if_neg hcond]
  · push_neg at hcase
    have hge : j + 1 ≤ firstGe (offAt n lo) i 0 tl := by
      by_contra hlt
      push_neg at hlt
      have hhit := firstGe_hit (offAt n lo) i tl 0 (by omega)
      have hmono : offAt n lo (firstGe (offAt n lo) i 0 tl) ≤ offAt n lo j :=
        offAt_mono n lo (by omega)
      omega
    have hle : firstGe (offAt n lo) i 0 tl ≤ j + 1 := by
      by_cases hjtl : j + 1 < tl
      · exact firstGe_found (offAt n lo) i tl 0 (j + 1) (by omega) (by omega) (by omega)
      · have := firstGe_le (offAt n lo) i tl 0
        omega
    have hj0 : firstGe (offAt n lo) i 0 tl = j + 1 := le_antisymm hle hge
    rw [hj0, if_pos (Or.inr h2)]
    omega

/-- Every index below the total table span lies in the bracket of exactly
one table entry; this provides the entry repIdx_eq then locates. -/
theorem exists_bracket (n lo : Nat) :
    ∀ tl i, i < offAt n lo tl → ∃ j, j < tl ∧ offAt n lo j ≤ i ∧ i < offAt n lo (j + 1) := by
  intro tl
  induction tl with
  | zero =>
      intro i h
      rw [offAt_zero] at h
      omega
  | succ m ih =>
      intro i h
      by_cases hc : offAt n lo m ≤ i
      · exact ⟨m, by omega, hc, h⟩
      · obtain ⟨j, hj1, hj2, hj3⟩ := ih i (by omega)
        exact ⟨j, by omega, hj2, hj3⟩

/-- Bound on the number of digits: a number below b ^ k has at most k
digits in base b. -/
theorem digits_len_le_of_lt_pow (b m k : Nat) (hb : 2 ≤ b) (h : m < b ^ k) :
    (Nat.digits b m).length ≤ k := by
  by_cases hm : m = 0
  · subst hm
    simp
  · rw [Nat.digits_len b m (by omega) hm]
    have := Nat.log_lt_of_lt_pow hm h
    omega

theorem wfListB_mem {ch : List SeqNode} (h : wfListB ch = true) {c : SeqNode} (hc : c ∈ ch) :
    wfB c = true := by
  induction ch with
  | nil => cases hc
  | cons a rest ih =>
      unfold wfListB at h
      rw [Bool.and_eq_true] at h
      rcases List.mem_cons.mp hc with h1 | h1
      · subst h1; exact h.1
      · exact ih h.2 h1

theorem noReadListB_mem {ch : List SeqNode} (h : noReadListB ch = true) {c : SeqNode} (hc : c ∈ ch) :
    noReadB c = true := by
  induction ch with
  | nil => cases hc
  | cons a rest ih =>
      unfold noReadListB at h
      rw [Bool.and_eq_true] at h
      rcases List.mem_cons.mp hc with h1 | h1
      · subst h1; exact h.1
      · exact ih h.2 h1

/-! ## Scan loop lemmas -/

theorem concatScan_ok (ch : List SeqNode) (hg : ∀ c ∈ ch, GoodNode c) :
    ∀ i, i < nodeLenSum ch → ∃ s, concatScan ch i = .ok s := by
  induction ch with
  | nil =>
      intro i h
      have : nodeLenSum [] = 0 := rfl
      omega
  | cons a rest ih =>
      intro i h
      have hsum : nodeLenSum (a :: rest) = nodeLen a + nodeLenSum rest := rfl
      unfold concatScan
      by_cases hc : i < nodeLen a
      · obtain ⟨env', hok⟩ := hg a (by simp) i hc none
        rw [if_pos hc, hok]
        exact ⟨valOf a i, rfl⟩
      · rw [if_neg hc]
        exact ih (fun c hc' => hg c (by simp [hc'])) (i - nodeLen a) (by omega)

theorem combinScan_ok (ch : List SeqNode) (hg : ∀ c ∈ ch, GoodNode c) :
    ∀ i env, i < nodeLenProd ch → ∃ env', combinScan ch i env = .ok (combinParts ch i, env') := by
  induction ch with
  | nil =>
      intro i env _
      exact ⟨env, rfl⟩
  | cons c rest ih =>
      intro i env h
      have hprod : nodeLenProd (c :: rest) = nodeLen c * nodeLenProd rest := rfl
      have hc0 : 0 < nodeLen c := by
        rcases Nat.eq_zero_or_pos (nodeLen c) with h0 | h0
        · rw [h0] at hprod
          simp at hprod
          omega
        · exact h0
      have hmod : i % nodeLen c < nodeLen c := Nat.mod_lt _ hc0
      obtain ⟨env1, hok1⟩ := hg c (by simp) (i % nodeLen c) hmod env
      have hdiv : i / nodeLen c < nodeLenProd rest := by
        rw [Nat.div_lt_iff_lt_mul hc0]
        calc i < nodeLen c * nodeLenProd rest := by rw [← hprod]; exact h
          _ = nodeLenProd rest * nodeLen c := by ring
      obtain ⟨env2, hok2⟩ := ih (fun c' hc' => hg c' (by simp [hc'])) (i / nodeLen c) env1 hdiv
      refine ⟨env2, ?_⟩
      unfold combinScan
      rw [hok1]
      dsimp only
      rw [hok2]
      rfl

theorem mapExcept_map (c : SeqNode) (hg : GoodNode c) (ds : List Nat)
    (hds : ∀ m ∈ ds, m < nodeLen c) :
    mapExcept (fun m => nodeGet c m none) ds = .ok (ds.map (valOf c)) := by
  induction ds with
  | nil => rfl
  | cons m ms ih =>
      obtain ⟨env', hok⟩ := hg m (hds m (by simp)) none
      unfold mapExcept
      rw [hok]
      dsimp only
      rw [ih (fun m' hm' => hds m' (by simp [hm']))]
      rfl

/-! ## Degenerate offset tables (empty content) -/

theorem offAt_base_zero (lo : Nat) :
    ∀ tl, offAt 0 lo tl = if lo = 0 ∧ 1 ≤ tl then 1 else 0 := by
  intro tl
  induction tl with
  | zero =>
      rw [offAt_zero]
      simp
  | succ m ih =>
      rw [offAt_succ, ih]
      by_cases hlo : lo = 0
      · subst hlo
        by_cases hm : m = 0
        · subst hm
          simp
        · rw [if_pos ⟨rfl, by omega⟩, if_pos ⟨rfl, by omega⟩]
          rw [zero_pow (by omega : 0 + m ≠ 0)]
          omega
      · rw [if_neg (by omega), if_neg (by omega), zero_pow (by omega : lo + m ≠ 0)]
        omega

theorem repIdx_zero (n lo tl : Nat) (htl : 1 ≤ tl) : repIdx n lo tl 0 = 0 := by
  unfold repIdx bisectLeft
  obtain ⟨m, rfl⟩ : ∃ m, tl = m + 1 := ⟨tl - 1, by omega⟩
  unfold firstGe
  rw [if_pos (Nat.zero_le _)]
  rw [if_neg]
  push_neg
  refine ⟨by omega, ?_⟩
  rw [offAt_zero]

/-! ## The value of RepetitiveSequence.get_item -/

theorem pad_assemble (f : Nat → Str) (l : List Nat) (pad : Nat) :
    (((l ++ List.replicate pad 0).reverse).map f).flatten
      = ((l.map f ++ List.replicate pad (f 0)).reverse).flatten := by
  rw [List.map_reverse, List.map_append, List.map_replicate]

/-- RepetitiveSequence.get_item at an index whose repetition count is k:
the result is num = i - offset_k written in base |C| least significant
first, padded with zero digits to exactly k digits, reversed (so the most
significant digit is leftmost) and mapped through the content. -/
theorem rep_get_eq (c : SeqNode) (lo hi i k : Nat) (env : Option Env)
    (hg : GoodNode c) (hn : 1 ≤ nodeLen c)
    (hlok : lo ≤ k) (hkhi : k ≤ hi)
    (h1 : offAt (nodeLen c) lo (k - lo) ≤ i)
    (h2 : i < offAt (nodeLen c) lo (k - lo + 1)) :
    nodeGet (.rep c lo hi) i env =
      .ok ((((Nat.digits (nodeLen c) (i - offAt (nodeLen c) lo (k - lo))
          ++ List.replicate (k - (Nat.digits (nodeLen c) (i - offAt (nodeLen c) lo (k - lo))).length) 0).reverse).map
          (valOf c)).flatten, env) := by
  have htl : k - lo < hi - lo + 1 := by omega
  have hidx : repIdx (nodeLen c) lo (hi - lo + 1) i = k - lo :=
    repIdx_eq (nodeLen c) lo (hi - lo + 1) i (k - lo) hn htl h1 h2
  have hcount : lo + (k - lo) = k := by omega
  have hsucc := offAt_succ (nodeLen c) lo (k - lo)
  have hnumlt : i - offAt (nodeLen c) lo (k - lo) < nodeLen c ^ k := by
    rw [hcount] at hsucc
    omega
  rw [nodeGet_rep, hidx, hcount]
  by_cases hk0 : k = 0
  · subst hk0
    rw [if_pos rfl]
    have hnum0 : i - offAt (nodeLen c) lo (0 - lo) = 0 := by
      have hnk : nodeLen c ^ 0 = 1 := pow_zero _
      omega
    rw [hnum0]
    simp
  · rw [if_neg hk0]
    by_cases h0 : i - offAt (nodeLen c) lo (k - lo) = 0
    · -- num = 0: divmod_iter yields the single digit [0]
      have hds : divmod_iter (i - offAt (nodeLen c) lo (k - lo)) (nodeLen c) = .ok [0] := by
        rw [h0]
        unfold divmod_iter divmod_iter_strategy
        rw [if_pos (by omega : 0 < nodeLen c)]
      rw [hds]
      dsimp only
      rw [mapExcept_map c hg [0] (by intro m hm; simp at hm; omega)]
      dsimp only
      rw [h0, Nat.digits_zero]
      have hlen1 : (List.map (valOf c) [0]).length = 1 := rfl
      rw [if_neg (by rw [hlen1]; omega)]
      by_cases hk1 : k = 1
      · rw [if_pos (by rw [hlen1]; omega)]
        subst hk1
        simp [List.replicate_succ]
      · rw [if_neg (by rw [hlen1]; omega)]
        obtain ⟨env0, hok0⟩ := hg 0 (by omega) none
        rw [hok0]
        dsimp only
        rw [hlen1]
        -- both sides are k copies of valOf c 0, most significant leftmost
        have hL : (List.map (valOf c) [0] ++ List.replicate (k - 1) (valOf c 0)).reverse
            = List.replicate k (valOf c 0) := by
          obtain ⟨m, rfl⟩ : ∃ m, k = m + 1 := ⟨k - 1, by omega⟩
          have hmap : List.map (valOf c) [0] = [valOf c 0] := rfl
          rw [hmap]
          have hjoin : ([valOf c 0] ++ List.replicate (m + 1 - 1) (valOf c 0))
              = List.replicate (m + 1) (valOf c 0) := by
            simp [List.replicate_succ]
          rw [hjoin, List.reverse_replicate]
        have hR : ((([] : List Nat) ++ List.replicate (k - ([] : List Nat).length) 0).reverse).map (valOf c)
            = List.replicate k (valOf c 0) := by
          simp
        rw [hL, hR]
    · -- num >= 1: the stream yields the digits of num
      have hn2 : 2 ≤ nodeLen c := by
        rcases Nat.lt_or_ge (nodeLen c) 2 with hlt | hge
        · exfalso
          have hn1 : nodeLen c = 1 := by omega
          rw [hn1] at hnumlt h0
          rw [one_pow] at hnumlt
          omega
        · exact hge
      have hds : divmod_iter (i - offAt (nodeLen c) lo (k - lo)) (nodeLen c)
          = .ok (Nat.digits (nodeLen c) (i - offAt (nodeLen c) lo (k - lo))) := by
        rw [divmod_iter_eq _ _ hn2, if_neg h0]
      rw [hds]
      dsimp only
      have hmem : ∀ m ∈ Nat.digits (nodeLen c) (i - offAt (nodeLen c) lo (k - lo)), m < nodeLen c :=
        fun m hm => Nat.digits_lt_base (by omega) hm
      rw [mapExcept_map c hg _ hmem]
      dsimp only
      have hdlen : (Nat.digits (nodeLen c) (i - offAt (nodeLen c) lo (k - lo))).length ≤ k :=
        digits_len_le_of_lt_pow _ _ _ hn2 hnumlt
      have hmaplen : (List.map (valOf c) (Nat.digits (nodeLen c) (i - offAt (nodeLen c) lo (k - lo)))).length
          = (Nat.digits (nodeLen c) (i - offAt (nodeLen c) lo (k - lo))).length :=
        List.length_map _ _
      rw [if_neg (by omega)]
      by_cases hkeq : k = (List.map (valOf c) (Nat.digits (nodeLen c) (i - offAt (nodeLen c) lo (k - lo)))).length
      · rw [if_pos hkeq]
        rw [pad_assemble]
        have hpad : k - (Nat.digits (nodeLen c) (i - offAt (nodeLen c) lo (k - lo))).length = 0 := by
          omega
        rw [hpad]
        simp
      · rw [if_neg hkeq]
        obtain ⟨env0, hok0⟩ := hg 0 (by omega) none
        rw [hok0]
        dsimp only
        rw [pad_assemble, hmaplen]

/-! ## Totality of in-range lookups -/

theorem sizeOf_concat_child {c : SeqNode} {ch : List SeqNode} (h : c ∈ ch) :
    sizeOf c < sizeOf (SeqNode.concat ch) := by
  have h1 := List.sizeOf_lt_of_mem h
  have h2 : sizeOf (SeqNode.concat ch) = 1 + sizeOf ch := by simp
  omega

theorem sizeOf_combin_child {c : SeqNode} {ch : List SeqNode} (h : c ∈ ch) :
    sizeOf c < sizeOf (SeqNode.combin ch) := by
  have h1 := List.sizeOf_lt_of_mem h
  have h2 : sizeOf (SeqNode.combin ch) = 1 + sizeOf ch := by simp
  omega

theorem sizeOf_rep_child (c : SeqNode) (lo hi : Nat) :
    sizeOf c < sizeOf (SeqNode.rep c lo hi) := by
  have h2 : sizeOf (SeqNode.rep c lo hi) = 1 + sizeOf c + sizeOf lo + sizeOf hi := by simp
  omega

theorem sizeOf_save_child (c : SeqNode) (key : Nat) :
    sizeOf c < sizeOf (SeqNode.save c key) := by
  have h2 : sizeOf (SeqNode.save c key) = 1 + sizeOf c + sizeOf key := by simp
  omega

theorem valOf_eq_of_nodeGet {c : SeqNode} {i : Nat} {s : Str} {env' : Option Env}
    (h : nodeGet c i none = .ok (s, env')) : valOf c i = s := by
  unfold valOf
  rw [h]

/-- Every in-range lookup on a well-formed tree without backreference
nodes succeeds, and its string value is independent of the environment. -/
theorem goodNode_of_wf_aux :
    ∀ N c, sizeOf c ≤ N → wfB c = true → noReadB c = true → GoodNode c := by
  intro N
  induction N using Nat.strong_induction_on with
  | _ N ih =>
      intro c hsz hwf hnr
      cases c with
      | lit es =>
          intro i hi env
          have hi' : i < es.length := hi
          have hsome : es[i]? = some es[i] := List.getElem?_eq_getElem hi'
          refine ⟨env, ?_⟩
          have hval : valOf (.lit es) i = es[i] := by
            unfold valOf
            rw [nodeGet_lit, hsome]
          rw [nodeGet_lit, hsome, hval]
      | concat ch =>
          intro i hi env
          have hwf' : wfListB ch = true := hwf
          have hnr' : noReadListB ch = true := hnr
          have hgch : ∀ c' ∈ ch, GoodNode c' := by
            intro c' hc'
            have hlt := sizeOf_concat_child hc'
            exact ih (sizeOf c') (by omega) c' le_rfl (wfListB_mem hwf' hc') (noReadListB_mem hnr' hc')
          have hi' : i < nodeLenSum ch := hi
          obtain ⟨s, hscan⟩ := concatScan_ok ch hgch i hi'
          refine ⟨env, ?_⟩
          have hval : valOf (.concat ch) i = s := by
            unfold valOf
            rw [nodeGet_concat, hscan]
          rw [nodeGet_concat, hscan, hval]
      | combin ch =>
          have hwf' : wfListB ch = true := hwf
          have hnr' : noReadListB ch = true := hnr
          have hgch : ∀ c' ∈ ch, GoodNode c' := by
            intro c' hc'
            have hlt := sizeOf_combin_child hc'
            exact ih (sizeOf c') (by omega) c' le_rfl (wfListB_mem hwf' hc') (noReadListB_mem hnr' hc')
          rcases ch with _ | ⟨c1, _ | ⟨c2, rest⟩⟩
          · intro i hi env
            have hi' : i < nodeLenProd [] := hi
            have h1 : nodeLenProd [] = 1 := rfl
            have hi0 : i = 0 := by omega
            subst hi0
            exact ⟨env, rfl⟩
          · intro i hi env
            have hg1 : GoodNode c1 := hgch c1 (by simp)
            have hiprod : i < nodeLenProd [c1] := hi
            have hi' : i < nodeLen c1 := by
              have h1 : nodeLenProd [c1] = nodeLen c1 * 1 := rfl
              omega
            obtain ⟨env0, hok0⟩ := hg1 i hi' none
            refine ⟨env, ?_⟩
            have hval : valOf (.combin [c1]) i = valOf c1 i := by
              unfold valOf
              rw [nodeGet_combin_single, if_neg (by omega : ¬i ≥ nodeLenProd [c1]), hok0]
            rw [nodeGet_combin_single, if_neg (by omega : ¬i ≥ nodeLenProd [c1]), hok0, hval]
          · intro i hi env
            have hi' : i < nodeLenProd (c1 :: c2 :: rest) := hi
            obtain ⟨env', hscan⟩ := combinScan_ok _ hgch i env hi'
            obtain ⟨env0, hscan0⟩ := combinScan_ok _ hgch i none hi'
            refine ⟨env', ?_⟩
            have hval : valOf (.combin (c1 :: c2 :: rest)) i
                = (combinParts (c1 :: c2 :: rest) i).flatten := by
              unfold valOf
              rw [nodeGet_combin_cons2, if_neg (by omega : ¬i ≥ nodeLenProd (c1 :: c2 :: rest)), hscan0]
            rw [nodeGet_combin_cons2, if_neg (by omega : ¬i ≥ nodeLenProd (c1 :: c2 :: rest)), hscan, hval]
      | rep cc lo hih =>
          intro i hilen env
          have hwf' : lo ≤ hih ∧ wfB cc = true := by
            have h1 : (decide (lo ≤ hih) && wfB cc) = true := hwf
            rw [Bool.and_eq_true, decide_eq_true_eq] at h1
            exact h1
          have hnr' : noReadB cc = true := hnr
          have hgc : GoodNode cc := by
            have hlt := sizeOf_rep_child cc lo hih
            exact ih (sizeOf cc) (by omega) cc le_rfl hwf'.2 hnr'
          have hilen' : i < offAt (nodeLen cc) lo (hih - lo + 1) := by
            rw [← nodeLen_rep cc lo hih hwf'.1]
            exact hilen
          rcases Nat.eq_zero_or_pos (nodeLen cc) with hn0 | hn1
          · have hofa := offAt_base_zero lo (hih - lo + 1)
            rw [hn0] at hilen'
            rw [hofa] at hilen'
            have hlo0 : lo = 0 := by
              by_contra hl
              rw [if_neg (by simp [hl])] at hilen'
              omega
            subst hlo0
            have hi0 : i = 0 := by
              rw [if_pos ⟨rfl, by omega⟩] at hilen'
              omega
            subst hi0
            refine ⟨env, ?_⟩
            have hval : valOf (.rep cc 0 hih) 0 = [] := by
              unfold valOf
              rw [nodeGet_rep, repIdx_zero _ _ _ (by omega)]
              rw [if_pos (show 0 + 0 = 0 from rfl)]
            rw [hval, nodeGet_rep, repIdx_zero _ _ _ (by omega)]
            rw [if_pos (show 0 + 0 = 0 from rfl)]
          · obtain ⟨j, hjlt, hb1, hb2⟩ := exists_bracket (nodeLen cc) lo (hih - lo + 1) i hilen'
            have hk1 : lo ≤ lo + j := by omega
            have hk2 : lo + j ≤ hih := by omega
            have hsub : lo + j - lo = j := by omega
            have heq := rep_get_eq cc lo hih i (lo + j) env hgc hn1 hk1 hk2
              (by rw [hsub]; exact hb1) (by rw [hsub]; exact hb2)
            have heq0 := rep_get_eq cc lo hih i (lo + j) none hgc hn1 hk1 hk2
              (by rw [hsub]; exact hb1) (by rw [hsub]; exact hb2)
            refine ⟨env, ?_⟩
            have hval := valOf_eq_of_nodeGet heq0
            rw [heq, hval]
      | save cc key =>
          intro i hilen env
          have hwf' : wfB cc = true := hwf
          have hnr' : noReadB cc = true := hnr
          have hgc : GoodNode cc := by
            have hlt := sizeOf_save_child cc key
            exact ih (sizeOf cc) (by omega) cc le_rfl hwf' hnr'
          have hilen' : i < nodeLen cc := hilen
          obtain ⟨env', hok⟩ := hgc i hilen' env
          obtain ⟨env0, hok0⟩ := hgc i hilen' none
          have hcond : ¬i > nodeLen cc := by omega
          have hval : valOf (.save cc key) i = valOf cc i := by
            unfold valOf
            rw [nodeGet_save, if_neg hcond, hok0]
          refine ⟨env'.map (fun d => envSet d key (valOf cc i)), ?_⟩
          rw [hval, nodeGet_save, if_neg hcond, hok]
      | read num =>
          have hfalse : noReadB (.read num) = false := rfl
          rw [hfalse] at hnr
          exact Bool.noConfusion hnr

/-- Specialisation: well-formedness and absence of backreference nodes
make every in-range lookup succeed with an environment-independent value. -/
theorem goodNode_of_wf (c : SeqNode) (hwf : wfB c = true) (hnr : noReadB c = true) :
    GoodNode c :=
  goodNode_of_wf_aux (sizeOf c) c le_rfl hwf hnr

/-- C6 (the code contradicts its own tests, e.g. testSlices asserting
that [abcdef][:-99] is the empty list): a slice bound that is still
negative after adding the size is not clamped to 0, _adjust_index raises
IndexError("Out of range"), so S[-(n+5):] on a sequence of size n = 6
fails instead of starting at 0.  The other clamping clauses of the claim
do hold: a negative value has size added (adjust_index (-3) 6 = 3) and a
value exceeding size becomes size (adjust_index 99 6 = 6). -/
theorem slice_indices_still_negative_raises :
    adjust_index (-11) 6 = .error .indexError ∧
      slice_indices (some (-11)) none none 6 = .error .indexError ∧
      slice_indices none (some (-99)) none 6 = .error .indexError ∧
      adjust_index (-3) 6 = .ok 3 ∧
      adjust_index 99 6 = .ok 6 :=
  ⟨rfl, rfl, rfl, rfl, rfl⟩

/-- The step component returned by slice_indices is exactly the given
step (or 1 when omitted). -/
theorem slice_indices_step (st sp : Option Int) (stepOpt : Option Int) (size : Nat)
    (a b c : Int) (h : slice_indices st sp stepOpt size = .ok (a, b, c)) :
    c = (match stepOpt with | none => 1 | some s => s) := by
  rcases stepOpt with _ | sv
  · show c = 1
    simp only [slice_indices] at h
    split at h
    · exact Except.noConfusion h
    · split at h
      · exact Except.noConfusion h
      · injection h with h1
        injection h1 with h2 h3
        injection h3 with h4 h5
        exact h5.symm
  · show c = sv
    simp only [slice_indices] at h
    split at h
    · exact Except.noConfusion h
    · split at h
      · exact Except.noConfusion h
      · injection h with h1
        injection h1 with h2 h3
        injection h3 with h4 h5
        exact h5.symm

/-- Counterexample to C7 as stated: a slice with step = 0 does not raise
IndexError; the length computation divides by step and raises
ZeroDivisionError (the repo's own test testSliceStepZero expects yet
another kind, ValueError "slice step cannot be zero", which the code
does not implement either). -/
theorem slice_step_zero_counterexample :
    slicedSequenceInit (some 0) (some 1) (some 0) 6 = .error .zeroDivisionError ∧
      slicedSequenceInit (some 0) (some 1) (some 0) 6 ≠ .error .indexError := by
  constructor
  · rfl
  · intro h
    have h2 : slicedSequenceInit (some 0) (some 1) (some 0) 6 = .error .zeroDivisionError := rfl
    rw [h2] at h
    injection h with h3
    exact PyErr.noConfusion h3

/-- C7 amended: constructing a slice view with step = 0 never succeeds;
whenever the start/stop normalisation itself succeeds the failure is
ZeroDivisionError from the length division (not IndexError); an omitted
step defaults to 1. -/
theorem slice_step_zero_spec (st sp : Option Int) (size : Nat) :
    (∀ r, slicedSequenceInit st sp (some 0) size ≠ .ok r) ∧
      (∀ v, slice_indices st sp (some 0) size = .ok v →
        slicedSequenceInit st sp (some 0) size = .error .zeroDivisionError) ∧
      (∀ a b c l, slicedSequenceInit st sp none size = .ok (a, b, c, l) → c = 1) := by
  refine ⟨?_, ?_, ?_⟩
  · intro r hr
    unfold slicedSequenceInit at hr
    split at hr
    · exact Except.noConfusion hr
    · next a1 b1 c1 heq =>
        have hc : c1 = 0 := slice_indices_step st sp (some 0) size a1 b1 c1 heq
        rw [if_pos hc] at hr
        exact Except.noConfusion hr
  · intro v hv
    rcases v with ⟨a, ⟨b, c⟩⟩
    have hc : c = 0 := slice_indices_step st sp (some 0) size a b c hv
    subst hc
    unfold slicedSequenceInit
    rw [hv]
    dsimp only
    rw [if_pos rfl]
  · intro a b c l h
    unfold slicedSequenceInit at h
    split at h
    · exact Except.noConfusion h
    · next a1 b1 c1 heq =>
        have hc : c1 = 1 := slice_indices_step st sp none size a1 b1 c1 heq
        subst hc
        rw [if_neg (by omega : ¬(1 : Int) = 0)] at h
        injection h with h1
        injection h1 with h2 h3
        injection h3 with h4 h5
        injection h5 with h6 h7
        exact h6.symm

/-- Witness for C7's amended statement at start 0, stop 1, size 6. -/
theorem slice_step_zero_spec_witness :
    slicedSequenceInit (some 0) (some 1) (some 0) 6 = .error .zeroDivisionError ∧
      (∀ a b c l, slicedSequenceInit (some 0) (some 1) none 6 = .ok (a, b, c, l) → c = 1) :=
  ⟨(slice_step_zero_spec (some 0) (some 1) 6).2.1 (0, 1, 0) rfl,
    (slice_step_zero_spec (some 0) (some 1) 6).2.2⟩

/-- Any CombinatoricsSequence raises IndexError at indices at or past its
length (the bounds check of get_item lines 214-217). -/
theorem nodeGet_combin_oob (ch : List SeqNode) (i : Nat) (env : Option Env)
    (h : i ≥ nodeLenProd ch) :
    nodeGet (.combin ch) i env = .error .indexError := by
  rcases ch with _ | ⟨c1, _ | ⟨c2, rest⟩⟩
  · rw [nodeGet_combin_nil, if_pos h]
  · rw [nodeGet_combin_single, if_pos h]
  · rw [nodeGet_combin_cons2, if_pos h]

/-- In-range lookups on a well-formed CombinatoricsSequence succeed. -/
theorem nodeGet_combin_ok (ch : List SeqNode) (i : Nat) (env : Option Env)
    (hwf : wfListB ch = true) (hnr : noReadListB ch = true)
    (h : i < nodeLenProd ch) :
    ∃ s env', nodeGet (.combin ch) i env = .ok (s, env') := by
  have hGN : GoodNode (.combin ch) := goodNode_of_wf (.combin ch) hwf hnr
  have h' : i < nodeLen (.combin ch) := h
  obtain ⟨env', hok⟩ := hGN i h' env
  exact ⟨valOf (.combin ch) i, env', hok⟩

/-- Counterexample to C5 as stated: the top-level sequence of the pattern
(a)|\1 -- a capture group in one alternation branch and a backreference
in the other -- has length 2, but S[1] raises ValueError rather than
succeeding: ConcatenatedSequence and the single-child fast path of
CombinatoricsSequence index their children through plain item access with
d = None, and ReadCaptureGroup.get_item raises ValueError when d is None. -/
theorem topGetItem_groupref_valueError :
    nodeLen (.combin [.concat [.combin [.save (.combin [.lit [['a']]]) 1],
        .combin [.read 1]]]) = 2 ∧
      topGetItem (.combin [.concat [.combin [.save (.combin [.lit [['a']]]) 1],
        .combin [.read 1]]]) true 1 = .error .valueError := by
  constructor
  · rfl
  · rfl

/-- adjust_index on an in-range index returns the normalised index. -/
theorem adjust_index_in_range (n : Int) (size : Nat)
    (h1 : -(size : Int) ≤ n) (h2 : n < (size : Int)) :
    adjust_index n size = .ok (if n < 0 then n + size else n) := by
  simp only [adjust_index]
  split_ifs <;> first | rfl | (exfalso; omega)

/-- adjust_index clamps indices at or above the size down to the size. -/
theorem adjust_index_ge (n : Int) (size : Nat) (h : (size : Int) ≤ n) :
    adjust_index n size = .ok (size : Int) := by
  simp only [adjust_index]
  split_ifs <;> first | rfl | (exfalso; omega) | (exact congrArg Except.ok (by omega))

/-- adjust_index raises IndexError when the index is still negative after
adding the size. -/
theorem adjust_index_neg_oob (n : Int) (size : Nat) (h : n + size < 0) :
    adjust_index n size = .error .indexError := by
  simp only [adjust_index]
  split_ifs <;> first | rfl | (exfalso; omega)

/-- C5 amended: for a successfully constructed top-level sequence whose
tree has no backreference node, S[i] succeeds exactly when
-len(S) <= i < len(S); out-of-range integer indices always raise
IndexError (for any tree, even with backreferences); an in-range index on
a tree with a backreference under an environment-dropping path can raise
ValueError instead (see topGetItem_groupref_valueError). -/
theorem topGetItem_range_spec (children : List SeqNode) (hg : Bool) (i : Int)
    (hwf : wfListB children = true) :
    ((noReadListB children = true ∧
        -(nodeLen (.combin children) : Int) ≤ i ∧ i < (nodeLen (.combin children) : Int)) →
      ∃ s, topGetItem (.combin children) hg i = .ok s) ∧
    (¬(-(nodeLen (.combin children) : Int) ≤ i ∧ i < (nodeLen (.combin children) : Int)) →
      topGetItem (.combin children) hg i = .error .indexError) := by
  have hLnat : nodeLen (SeqNode.combin children) = nodeLenProd children := rfl
  constructor
  · rintro ⟨hnr, h1, h2⟩
    have hadj1 := adjust_index_in_range i (nodeLen (.combin children)) h1 h2
    have hbnd : 0 ≤ (if i < 0 then i + (nodeLen (.combin children) : Int) else i) ∧
        (if i < 0 then i + ((nodeLen (.combin children)) : Int) else i)
          < (nodeLen (.combin children) : Int) := by
      by_cases hneg : i < 0
      · simp only [if_pos hneg]
        omega
      · simp only [if_neg hneg]
        omega
    have hadj2 := adjust_index_in_range
      (if i < 0 then i + ((nodeLen (.combin children)) : Int) else i)
      (nodeLen (.combin children)) (by omega) hbnd.2
    rw [if_neg (by omega :
        ¬(if i < 0 then i + ((nodeLen (.combin children)) : Int) else i) < 0)] at hadj2
    have htoNat : (if i < 0 then i + ((nodeLen (.combin children)) : Int) else i).toNat
        < nodeLenProd children := by
      rw [← hLnat]
      omega
    obtain ⟨s, env', hok⟩ := nodeGet_combin_ok children _
      (if hg then some [] else none) hwf hnr htoNat
    refine ⟨s, ?_⟩
    unfold topGetItem
    rw [hadj1]
    dsimp only
    rw [hadj2]
    dsimp only
    rw [hok]
  · intro hout
    rcases Int.lt_or_le i 0 with hneg | hpos
    · have hlt : i + (nodeLen (.combin children) : Int) < 0 := by omega
      unfold topGetItem
      rw [adjust_index_neg_oob i _ hlt]
    · have hge : (nodeLen (.combin children) : Int) ≤ i := by omega
      unfold topGetItem
      rw [adjust_index_ge i _ hge]
      dsimp only
      rw [adjust_index_ge _ _ (le_refl _)]
      dsimp only
      rw [show ((nodeLen (SeqNode.combin children) : Int)).toNat = nodeLenProd children from by
        rw [Int.toNat_natCast, hLnat]]
      rw [nodeGet_combin_oob children _ _ (le_refl _)]

/-- Witness for C5's amended statement with the sequence of pattern
[ab]: the in-range direction at i = -1 and the IndexError direction at
the boundary i = 2. -/
theorem topGetItem_range_spec_witness :
    (∃ s, topGetItem (.combin [.lit [['a'], ['b']]]) false (-1) = .ok s) ∧
      topGetItem (.combin [.lit [['a'], ['b']]]) false 2 = .error .indexError :=
  ⟨(topGetItem_range_spec [.lit [['a'], ['b']]] false (-1) rfl).1 ⟨rfl, by decide, by decide⟩,
    (topGetItem_range_spec [.lit [['a'], ['b']]] false 2 rfl).2 (by decide)⟩

/-- The iterated divmod loop computes exactly the mixed-radix digits with
the first child least significant: the j-th child is indexed at
(i / prod of the lengths of children before j) mod its own length. -/
theorem combinParts_digits (ch : List SeqNode) (i : Nat) :
    combinParts ch i = (List.range ch.length).map
      (fun j => valOf (ch.getD j (.lit []))
        ((i / ((ch.take j).map nodeLen).prod) % nodeLen (ch.getD j (.lit [])))) := by
  induction ch generalizing i with
  | nil => rfl
  | cons c rest ih =>
      show valOf c (i % nodeLen c) :: combinParts rest (i / nodeLen c) = _
      rw [List.length_cons, List.range_succ_eq_map, List.map_cons]
      congr 1
      · simp
      · rw [ih (i / nodeLen c), List.map_map]
        refine List.map_congr_left ?_
        intro j hj
        simp only [Function.comp_apply, List.getD_cons_succ, List.take_succ_cons,
          List.map_cons, List.prod_cons]
        rw [← Nat.div_div_eq_div_mul]

/-- C2: CombinatoricsSequence.get_item first normalises a negative index
by adding the total product length and raises IndexError when the
normalised index is outside [0, product); for an in-range index it
returns the concatenation, in child declaration order, of each child
indexed at its mixed-radix digit with the first child least significant. -/
theorem combinGetItemInt_spec (children : List SeqNode) (i : Int) (env : Option Env)
    (h2 : 2 ≤ children.length)
    (hwf : wfListB children = true) (hnr : noReadListB children = true)
    (_hne : ∀ c ∈ children, 1 ≤ nodeLen c) :
    ((normIdx i (nodeLenProd children) < 0 ∨
        normIdx i (nodeLenProd children) ≥ (nodeLenProd children : Int)) →
      combinGetItemInt children i env = .error .indexError) ∧
    ((0 ≤ normIdx i (nodeLenProd children) ∧
        normIdx i (nodeLenProd children) < (nodeLenProd children : Int)) →
      ∃ env', combinGetItemInt children i env =
        .ok (((List.range children.length).map
          (fun j => valOf (children.getD j (.lit []))
            (((normIdx i (nodeLenProd children)).toNat /
                ((children.take j).map nodeLen).prod)
              % nodeLen (children.getD j (.lit []))))).flatten, env')) := by
  constructor
  · intro hout
    unfold combinGetItemInt
    rw [if_pos hout]
  · rintro ⟨ha, hb⟩
    have hnot : ¬(normIdx i (nodeLenProd children) < 0 ∨
        normIdx i (nodeLenProd children) ≥ (nodeLenProd children : Int)) := by
      omega
    have htoNat : (normIdx i (nodeLenProd children)).toNat < nodeLenProd children := by
      omega
    rcases children with _ | ⟨c1, _ | ⟨c2, rest⟩⟩
    · simp at h2
    · simp at h2
    · have hgch : ∀ c' ∈ c1 :: c2 :: rest, GoodNode c' := fun c' hc' =>
        goodNode_of_wf c' (wfListB_mem hwf hc') (noReadListB_mem hnr hc')
      obtain ⟨env', hscan⟩ := combinScan_ok _ hgch
        (normIdx i (nodeLenProd (c1 :: c2 :: rest))).toNat env htoNat
      refine ⟨env', ?_⟩
      unfold combinGetItemInt
      rw [if_neg hnot, nodeGet_combin_cons2, if_neg (by omega), hscan]
      rw [combinParts_digits]

/-- Witness for C2 with [ab][cde] at i = -1 (normalised to 5, digits
(1, 2), yielding the string "be"). -/
theorem combinGetItemInt_spec_witness :
    combinGetItemInt [.lit [['a'], ['b']], .lit [['c'], ['d'], ['e']]] (-1) (some [])
        = .ok (['b', 'e'], some []) ∧
      (∃ env', combinGetItemInt [.lit [['a'], ['b']], .lit [['c'], ['d'], ['e']]] (-1) (some [])
        = .ok (((List.range ([SeqNode.lit [['a'], ['b']], .lit [['c'], ['d'], ['e']]]).length).map
            (fun j => valOf (([SeqNode.lit [['a'], ['b']], .lit [['c'], ['d'], ['e']]]).getD j (.lit []))
              (((normIdx (-1) (nodeLenProd [SeqNode.lit [['a'], ['b']], .lit [['c'], ['d'], ['e']]])).toNat /
                  ((([SeqNode.lit [['a'], ['b']], .lit [['c'], ['d'], ['e']]]).take j).map nodeLen).prod)
                % nodeLen (([SeqNode.lit [['a'], ['b']], .lit [['c'], ['d'], ['e']]]).getD j (.lit []))))).flatten,
          env')) :=
  ⟨rfl,
    (combinGetItemInt_spec [.lit [['a'], ['b']], .lit [['c'], ['d'], ['e']]] (-1) (some [])
      (by decide) rfl rfl (by decide)).2 ⟨by decide, by decide⟩⟩

/-! ## C1: the value of RepetitiveSequence.get_item -/

theorem flatten_length_ones {L : List Str} (h : ∀ s ∈ L, s.length = 1) :
    L.flatten.length = L.length := by
  induction L with
  | nil => rfl
  | cons a rest ih =>
      rw [List.flatten_cons, List.length_append, List.length_cons,
        ih (fun s hs => h s (by simp [hs])), h a (by simp)]
      omega

/-- C1: for content C with |C| >= 1 and lo <= hi, at every index i whose
repetition count is k (offset_k <= i < offset_(k+1), lo <= k <= hi, with
offset_k = powersum(|C|, lo, k-1) = offAt |C| lo (k-lo)),
RepetitiveSequence.get_item returns the concatenation of exactly k
elements of C: num = i - offset_k written as a base-|C| numeral most
significant digit leftmost, each digit d mapped to C[d], left-padded with
copies of C[0] (digit 0); when every element of C is a single character
the resulting string has length exactly k; and the offset table is
strictly increasing, so all strings of count k precede those of count
k + 1. -/
theorem rep_get_item_spec (C : SeqNode) (lo hi i k : Nat) (env : Option Env)
    (hwf : wfB C = true) (hnr : noReadB C = true) (hC : 1 ≤ nodeLen C)
    (hlok : lo ≤ k) (hkhi : k ≤ hi)
    (h1 : offAt (nodeLen C) lo (k - lo) ≤ i)
    (h2 : i < offAt (nodeLen C) lo (k - lo + 1)) :
    nodeGet (.rep C lo hi) i env =
      .ok ((((Nat.digits (nodeLen C) (i - offAt (nodeLen C) lo (k - lo))
          ++ List.replicate (k - (Nat.digits (nodeLen C) (i - offAt (nodeLen C) lo (k - lo))).length) 0).reverse).map
          (valOf C)).flatten, env) ∧
      ((Nat.digits (nodeLen C) (i - offAt (nodeLen C) lo (k - lo))
          ++ List.replicate (k - (Nat.digits (nodeLen C) (i - offAt (nodeLen C) lo (k - lo))).length) 0).reverse).length = k ∧
      ((∀ d, d < nodeLen C → (valOf C d).length = 1) →
        (((((Nat.digits (nodeLen C) (i - offAt (nodeLen C) lo (k - lo))
          ++ List.replicate (k - (Nat.digits (nodeLen C) (i - offAt (nodeLen C) lo (k - lo))).length) 0).reverse).map
          (valOf C)).flatten).length = k)) ∧
      offAt (nodeLen C) lo (k - lo) < offAt (nodeLen C) lo (k - lo + 1) := by
  have hg : GoodNode C := goodNode_of_wf C hwf hnr
  have heq := rep_get_eq C lo hi i k env hg hC hlok hkhi h1 h2
  have hsucc := offAt_succ (nodeLen C) lo (k - lo)
  have hcount : lo + (k - lo) = k := by omega
  have hnumlt : i - offAt (nodeLen C) lo (k - lo) < nodeLen C ^ k := by
    rw [hcount] at hsucc
    omega
  have hdlen : (Nat.digits (nodeLen C) (i - offAt (nodeLen C) lo (k - lo))).length ≤ k := by
    by_cases hn2 : 2 ≤ nodeLen C
    · exact digits_len_le_of_lt_pow _ _ _ hn2 hnumlt
    · have hn1 : nodeLen C = 1 := by omega
      have h0 : i - offAt (nodeLen C) lo (k - lo) = 0 := by
        rw [hn1] at hnumlt ⊢
        rw [one_pow] at hnumlt
        omega
      rw [h0]
      simp
  refine ⟨heq, ?_, ?_, offAt_lt_succ _ _ _ hC⟩
  · rw [List.length_reverse, List.length_append, List.length_replicate]
    omega
  · intro hchar
    rw [flatten_length_ones, List.length_map, List.length_reverse, List.length_append,
      List.length_replicate]
    · omega
    · intro s hs
      obtain ⟨d, hd, rfl⟩ := List.mem_map.mp hs
      apply hchar
      rw [List.mem_reverse] at hd
      rcases List.mem_append.mp hd with hd1 | hd2
      · have hnum_pos : i - offAt (nodeLen C) lo (k - lo) ≠ 0 := by
          intro h0
          rw [h0] at hd1
          simp at hd1
        have hn2 : 2 ≤ nodeLen C := by
          by_contra hh
          have hn1 : nodeLen C = 1 := by omega
          rw [hn1] at hnumlt hnum_pos
          rw [one_pow] at hnumlt
          omega
        exact Nat.digits_lt_base (by omega) hd1
      · have hd0 : d = 0 := by
          have := List.eq_of_mem_replicate hd2
          exact this
        omega

/-- Witness for C1 with [ab]{1,2} at i = 3: count k = 2, num = 1, digits
[1] padded to [1, 0], reversed to the big-endian word "ab". -/
theorem rep_get_item_spec_witness :
    nodeGet (.rep (.lit [['a'], ['b']]) 1 2) 3 none = .ok (['a', 'b'], none) ∧
      nodeGet (.rep (.lit [['a'], ['b']]) 1 2) 3 none
        = .ok ((((Nat.digits (nodeLen (.lit [['a'], ['b']]))
              (3 - offAt (nodeLen (.lit [['a'], ['b']])) 1 (2 - 1))
            ++ List.replicate (2 - (Nat.digits (nodeLen (.lit [['a'], ['b']]))
              (3 - offAt (nodeLen (.lit [['a'], ['b']])) 1 (2 - 1))).length) 0).reverse).map
            (valOf (.lit [['a'], ['b']]))).flatten, none) :=
  ⟨rfl, (rep_get_item_spec (.lit [['a'], ['b']]) 1 2 3 2 none rfl rfl (by decide) (by decide)
      (by decide) (by decide) (by decide)).1⟩

/-! ## C10: plain item access drops the binding environment -/

/-- C10: ConcatenatedSequence.get_item answers via a[i] (plain item
access, not get_item with d), and the single-child fast path of
CombinatoricsSequence.get_item likewise returns list_lengths[0][0][i];
consequently the environment d is returned unchanged on these paths, and
a SaveCaptureGroup sitting under an alternation branch (or under a
single-child product) never records its captured string in d. -/
theorem env_unchanged_plain_access (children : List SeqNode) (c : SeqNode)
    (i : Nat) (env : Option Env) :
    (∀ s env', nodeGet (.concat children) i env = .ok (s, env') → env' = env) ∧
    (∀ s env', nodeGet (.combin [c]) i env = .ok (s, env') → env' = env) ∧
    (∀ child key s env', nodeGet (.concat [.save child key]) i env = .ok (s, env') → env' = env) := by
  have hconcat : ∀ (ch : List SeqNode) (s : Str) (env' : Option Env),
      nodeGet (.concat ch) i env = .ok (s, env') → env' = env := by
    intro ch s env' h
    rw [nodeGet_concat] at h
    cases hcs : concatScan ch i with
    | ok s2 =>
        rw [hcs] at h
        injection h with h1
        injection h1 with h2 h3
        exact h3.symm
    | error e =>
        rw [hcs] at h
        exact Except.noConfusion h
  refine ⟨hconcat children, ?_, fun child key => hconcat [.save child key]⟩
  intro s env' h
  rw [nodeGet_combin_single] at h
  by_cases hb : i ≥ nodeLenProd [c]
  · rw [if_pos hb] at h
    exact Except.noConfusion h
  · rw [if_neg hb] at h
    cases hng : nodeGet c i none with
    | ok p =>
        obtain ⟨s2, e2⟩ := p
        rw [hng] at h
        injection h with h1
        injection h1 with h2 h3
        exact h3.symm
    | error e =>
        rw [hng] at h
        exact Except.noConfusion h

/-- Witness for C10: a capture group under an alternation branch yields
its string but the environment comes back exactly as it went in (the
captured value is not recorded). -/
theorem env_unchanged_plain_access_witness :
    nodeGet (.concat [.save (.lit [['a']]) 5]) 0 (some []) = .ok (['a'], some []) ∧
      (some ([] : Env)) = some ([] : Env) :=
  ⟨rfl, (env_unchanged_plain_access [.save (.lit [['a']]) 5] (.lit [['a']]) 0 (some [])).2.2
      (.lit [['a']]) 5 ['a'] (some []) rfl⟩
